import Mathlib

/-!
# Verification of the pawdy RAG pipeline core

A shallow embedding of the core logic of the `mabulgu/pawdy` repository:

* the document chunker (`internal/document/processor.go`: `chunkText`,
  `getOverlapText`),
* the safety-classifier response parser and refusal rendering
  (`internal/safety/guard.go`: `parseResponse`, `GetRefusalMessage`,
  `pkg/types`: `SafetyCategories`),
* the prompt builder (`internal/prompt/builder.go`: `BuildRAGPrompt`,
  `FormatResponse`),
* the query orchestrator (`internal/app/app.go`: `App.Ask`), modelled as a
  pure function over an environment that fixes the behaviour of the external
  collaborators (safety gate verdicts, retriever results, backend response),
  together with the trace of collaborator invocations.

Go strings are modelled as `List Char` where character-level structure
matters (chunking, parsing) and as Lean `String` where strings are only
concatenated or compared (orchestrator, prompt building).  Go byte lengths
coincide with character counts on ASCII text; `unicode.IsSpace` is modelled
by its ASCII fragment.  Go `float64` values that are only compared and
passed through (temperatures, scores) are modelled as `Rat`.
-/

namespace Pawdy

/-! ## Characters and whitespace

`goIsSpace` models `unicode.IsSpace` (ASCII fragment, as used by
`strings.Fields` / `strings.TrimSpace`); `reIsSpace` models the RE2 class
`\s = [\t\n\f\r ]` used by the safety parser's regular expression. -/

def goIsSpace (c : Char) : Bool :=
  c = ' ' || c = '\t' || c = '\n' || c = '\x0b' || c = '\x0c' || c = '\r'

def reIsSpace (c : Char) : Bool :=
  c = ' ' || c = '\t' || c = '\n' || c = '\x0c' || c = '\r'

/-- ASCII fragment of `strings.ToLower`. -/
def asciiToLower (c : Char) : Char :=
  if 'A' ≤ c ∧ c ≤ 'Z' then Char.ofNat (c.toNat + 32) else c

/-- ASCII fragment of `strings.ToUpper`. -/
def asciiToUpper (c : Char) : Char :=
  if 'a' ≤ c ∧ c ≤ 'z' then Char.ofNat (c.toNat - 32) else c

/-! ## `strings.Fields` and `strings.TrimSpace` -/

/-- One step of the right fold computing `strings.Fields`: a whitespace
character opens a fresh (possibly empty) segment, a non-whitespace character
extends the current head segment. -/
def fieldsStep (c : Char) (acc : List (List Char)) : List (List Char) :=
  if goIsSpace c then [] :: acc
  else
    match acc with
    | [] => [[c]]
    | w :: rest => (c :: w) :: rest

/-- Segments of a string split at whitespace characters (empty segments
still present). -/
def fieldsCore (s : List Char) : List (List Char) :=
  s.foldr fieldsStep []

/-- Model of Go `strings.Fields`: the whitespace-separated words of `s`,
with empty segments dropped (Go splits around runs of whitespace). -/
def fields (s : List Char) : List (List Char) :=
  (fieldsCore s).filter (fun w => !w.isEmpty)

/-- Model of Go `strings.TrimSpace`: drop leading and trailing whitespace. -/
def trimSpace (s : List Char) : List Char :=
  ((s.dropWhile goIsSpace).reverse.dropWhile goIsSpace).reverse

/-! ## The chunker (`internal/document/processor.go`)

`getOverlapText` and `chunkText` are embedded from `Processor.getOverlapText`
and `Processor.chunkText`.  Go byte indexing/lengths coincide with the
`List Char` model on ASCII text.  The `int` parameters `maxTokens`/`overlap`
are modelled as `Nat` (the configuration boundary only produces nonnegative
values, and the spec's invariant `chunkOverlap < chunkTokens` presupposes
them nonnegative). -/

/-- Model of `Processor.getOverlapText`: the last `overlapChars` characters of `text`,
extended backward-trimmed to a word boundary — scan forward from the
truncation point to the first `' '` byte; if none is found the raw
truncation is used. -/
def getOverlapText (text : List Char) (overlapChars : Nat) : List Char :=
  if text.length ≤ overlapChars then text
  else
    let tail := text.drop (text.length - overlapChars)
    let fromSpace := tail.dropWhile (fun c => !(c = ' '))
    if fromSpace = [] then trimSpace tail else trimSpace fromSpace

/-- The word loop of `Processor.chunkText`: `chunks` is the accumulator of
closed chunks, `current` the running chunk. -/
def chunkGo (maxChars overlapChars : Nat) :
    List (List Char) → List (List Char) → List Char → List (List Char)
  | [], chunks, current =>
      -- Add the final chunk if it has content
      if trimSpace current ≠ [] then chunks ++ [trimSpace current] else chunks
  | word :: rest, chunks, current =>
      let testChunk := if current = [] then word else current ++ ' ' :: word
      if testChunk.length > maxChars ∧ current ≠ [] then
        -- Save current chunk, start new chunk with overlap
        let chunks2 := chunks ++ [trimSpace current]
        let current2 :=
          if overlapChars > 0 ∧ chunks2 ≠ [] then
            getOverlapText current overlapChars ++ ' ' :: word
          else word
        chunkGo maxChars overlapChars rest chunks2 current2
      else
        chunkGo maxChars overlapChars rest chunks testChunk

/-- Model of `Processor.chunkText`: split `text` into overlapping chunks, with the
approximation 1 token ≈ 4 characters. -/
def chunkText (text : List Char) (maxTokens overlap : Nat) : List (List Char) :=
  let maxChars := maxTokens * 4
  let overlapChars := overlap * 4
  let words := fields text
  if words = [] then [] else chunkGo maxChars overlapChars words [] []

/-! ## Safety data model (`pkg/types`)

`types.SafetyResult`; Go zero values are the field defaults.  `float64`
scores are modelled as `Rat`. -/

structure SafetyResult where
  isSafe : Bool
  category : String := ""
  reason : String := ""
  score : Rat := 0
deriving Repr, DecidableEq

/-- The table `types.SafetyCategories` (a read-only map, modelled as an association
list). -/
def safetyCategories : List (String × String) :=
  [("S1", "Violent Crimes"), ("S2", "Non-Violent Crimes"), ("S3", "Sex Crimes"),
   ("S4", "Child Exploitation"), ("S5", "Defamation"), ("S6", "Specialized Advice"),
   ("S7", "Privacy"), ("S8", "Intellectual Property"), ("S9", "Indiscriminate Weapons"),
   ("S10", "Hate"), ("S11", "Self-Harm"), ("S12", "Sexual Content"),
   ("S13", "Elections"), ("S14", "Code Interpreter Abuse")]

def lookupCategory (code : String) : Option String :=
  safetyCategories.lookup code

/-! ## The classifier response parser (`internal/safety/guard.go`) -/

/-- Case-insensitive match of a literal pattern at the head of a string
(ASCII case folding, as RE2 `(?i)` does on ASCII). -/
def lowerStartsWith : List Char → List Char → Bool
  | [], _ => true
  | _ :: _, [] => false
  | p :: ps, c :: cs => asciiToLower c = p && lowerStartsWith ps cs

/-- The optional capture group `(s\d+)?` of the guard regex
`(?i)unsafe\s*(s\d+)?`, evaluated right after a match of `unsafe`:
greedily skip `\s*`, then match `s`/`S` followed by a nonempty maximal
digit run.  (No backtracking into `\s*` can help: a whitespace character
never matches the literal `s`, so the group matches exactly when the first
non-whitespace character is an `s` followed by at least one digit.) -/
def captureAfter (t : List Char) : Option (List Char) :=
  match t.dropWhile reIsSpace with
  | [] => none
  | c :: rest =>
    if asciiToLower c = 's' then
      let ds := rest.takeWhile Char.isDigit
      if ds = [] then none else some (c :: ds)
    else none

/-- Leftmost match of the RE2 pattern `(?i)unsafe\s*(s\d+)?` over `s`
(`regexp.FindStringSubmatch`): `some cap` when `unsafe` occurs
case-insensitively in `s`, with `cap` the capture of the optional category
group at the leftmost occurrence. -/
def findUnsafeCapture : List Char → Option (Option (List Char))
  | [] => none
  | c :: rest =>
    if lowerStartsWith ("unsafe".toList) (c :: rest) then
      some (captureAfter ((c :: rest).drop 6))
    else findUnsafeCapture rest

/-- Whether `unsafe` occurs case-insensitively in `s`, i.e. whether the
guard regex matches at all. -/
def containsUnsafe : List Char → Bool
  | [] => false
  | c :: rest => lowerStartsWith ("unsafe".toList) (c :: rest) || containsUnsafe rest

/-- Model of `Guard.parseResponse`. -/
def parseResponse (response : String) : SafetyResult :=
  let r := trimSpace response.toList
  if r.map asciiToLower = "safe".toList then
    { isSafe := true }
  else
    match findUnsafeCapture r with
    | some cap =>
        match cap with
        | some tok =>
            let categoryCode := String.mk (tok.map asciiToUpper)
            { isSafe := false, category := categoryCode,
              reason := (lookupCategory categoryCode).getD "" }
        | none => { isSafe := false }
    | none =>
        { isSafe := false, reason := "Unable to determine safety classification" }

/-- Model of `safety.GetRefusalMessage`. -/
def getRefusalMessage (category : String) : String :=
  let baseMessage := "I can\x27t provide assistance with that request as it may violate content safety guidelines"
  if category = "" then baseMessage ++ "."
  else
    match lookupCategory category with
    | none => baseMessage ++ "."
    | some categoryDescription =>
        baseMessage ++ " (category: " ++ category ++ " - " ++
          categoryDescription ++ ")."

/-! ## Prompt building and response formatting (`internal/prompt/builder.go`)

`types.Document`; the `map[string]any` metadata is modelled as an
association list with string values (the builder reads only the string
values at the `title` and `path` keys; a missing key and a non-string
value behave alike, as the empty string does in the Go code). -/

structure Document where
  id : String
  content : String
  metadata : List (String × String)
  score : Rat
deriving Repr, DecidableEq

/-- One numbered source block of `Builder.BuildRAGPrompt`. -/
def sourceBlock (i : Nat) (doc : Document) : String :=
  let title := (doc.metadata.lookup "title").getD ""
  let path := (doc.metadata.lookup "path").getD ""
  let header :=
    "### Source " ++ toString (i + 1) ++
      (if title ≠ "" then " - " ++ title
       else if path ≠ "" then " - " ++ path
       else "")
  header ++ ":\n" ++ doc.content ++ "\n\n"

/-- Model of `Builder.BuildRAGPrompt`. -/
def buildRAGPrompt (query : String) (context : List Document) : String :=
  let contextText :=
    if context.length > 0 then
      "Based on the following context from the documentation:\n\n" ++
        String.join (context.enum.map (fun p => sourceBlock p.1 p.2)) ++ "---\n\n"
    else ""
  let prompt := contextText ++ "Question: " ++ query ++ "\n\n"
  if context.length > 0 then
    prompt ++ "Please answer the question based on the provided context. " ++
      "If the context doesn\x27t contain relevant information, say so clearly. " ++
      "Be specific and reference the sources when possible."
  else
    prompt ++ "Please answer this question about OpenShift Bare Metal operations. " ++
      "Provide detailed, practical guidance where possible."

/-- Decimal rendering with one fractional digit, approximating Go
`fmt.Sprintf` with `%.1f` over `Rat` (only applied to positive scores). -/
def formatOneDecimal (x : Rat) : String :=
  let n : Int := round (x * 10)
  toString (n / 10) ++ "." ++ toString (n % 10)

/-- Model of `Builder.FormatResponse`. -/
def formatResponse (response : String) (sources : List Document) : String :=
  if sources.length = 0 then response
  else
    let formatted := String.mk (trimSpace response.toList)
    let formatted := formatted ++ "\n\n**Sources:**\n"
    formatted ++ String.join (sources.enum.map (fun p =>
      let i := p.1
      let source := p.2
      let sourceRef := "[" ++ toString (i + 1) ++ "]"
      let title := (source.metadata.lookup "title").getD ""
      let path := (source.metadata.lookup "path").getD ""
      let line :=
        if title ≠ "" then sourceRef ++ " " ++ title
        else if path ≠ "" then sourceRef ++ " " ++ path
        else sourceRef ++ " Document " ++ source.id
      let line2 :=
        if source.score > 0 then
          line ++ " (relevance: " ++ formatOneDecimal (source.score * 100) ++ "%)"
        else line
      line2 ++ "\n"))

/-! ## The orchestrator (`internal/app/app.go`)

`App.Ask` is modelled as a pure function of an environment fixing the
behaviour of the external collaborators for this run, paired with the
trace of collaborator invocations made.  Errors are `Except String`
(the Go `error`), wrapped with the same message prefixes `fmt.Errorf`
uses.  `float64` temperatures are modelled as `Rat` (they are only
compared to zero and passed through). -/

structure Source where
  id : String
  content : String
  metadata : List (String × String)
  score : Rat
deriving Repr, DecidableEq

structure GenerateOptions where
  temperature : Rat
  topP : Rat
  maxTokens : Int
  stopSequences : List String
  systemPrompt : String
deriving Repr, DecidableEq

/-- The configuration fields `App.Ask` consumes. -/
structure Config where
  topK : Int
  temperature : Rat
  maxTokens : Int
  topP : Rat
deriving Repr, DecidableEq

/-- One invocation of an external collaborator during `App.Ask`. -/
inductive AskCall where
  | checkInput (text : String)
  | search (query : String) (topK : Int)
  | generate (prompt : String) (opts : GenerateOptions)
  | checkOutput (text : String)
deriving Repr, DecidableEq

/-- The behaviour of the external collaborators during one `App.Ask` run:
the two safety-gate verdicts, the retriever result, the system-prompt
load, and the backend response. -/
structure AskEnv where
  safetyEnabled : Bool
  inputVerdict : Except String SafetyResult
  searchResult : Except String (List Document)
  systemPromptResult : Except String String
  generateResult : Except String String
  outputVerdict : Except String SafetyResult

/-- The per-document `Source` conversion at the end of `App.Ask`. -/
def mkSource (doc : Document) : Source :=
  { id := doc.id, content := doc.content, metadata := doc.metadata,
    score := doc.score }

/-- Model of `App.Ask` from the retrieval stage on (reached when the input gate
passed or safety is disabled). -/
def askFromRetrieve (cfg : Config) (env : AskEnv) (question : String)
    (temperature : Rat) :
    Except String (String × List Source) × List AskCall :=
  match env.searchResult with
  | .error e => (.error ("failed to retrieve documents: " ++ e),
      [AskCall.search question cfg.topK])
  | .ok documents =>
    let prompt := buildRAGPrompt question documents
    match env.systemPromptResult with
    | .error e => (.error ("failed to build system prompt: " ++ e),
        [AskCall.search question cfg.topK])
    | .ok systemPrompt =>
      let opts0 : GenerateOptions :=
        { temperature := temperature, maxTokens := cfg.maxTokens,
          topP := cfg.topP, stopSequences := [], systemPrompt := systemPrompt }
      let opts := if temperature = 0 then
          { opts0 with temperature := cfg.temperature } else opts0
      match env.generateResult with
      | .error e => (.error ("failed to generate response: " ++ e),
          [AskCall.search question cfg.topK, AskCall.generate prompt opts])
      | .ok response =>
        if env.safetyEnabled then
          match env.outputVerdict with
          | .error e => (.error ("output safety check failed: " ++ e),
              [AskCall.search question cfg.topK, AskCall.generate prompt opts,
               AskCall.checkOutput response])
          | .ok verdict =>
            if verdict.isSafe = false then
              (.ok (getRefusalMessage verdict.category, []),
               [AskCall.search question cfg.topK, AskCall.generate prompt opts,
                AskCall.checkOutput response])
            else
              (.ok (response, documents.map mkSource),
               [AskCall.search question cfg.topK, AskCall.generate prompt opts,
                AskCall.checkOutput response])
        else
          (.ok (response, documents.map mkSource),
           [AskCall.search question cfg.topK, AskCall.generate prompt opts])

/-- Model of `App.Ask`. -/
def ask (cfg : Config) (env : AskEnv) (question : String)
    (temperature : Rat) :
    Except String (String × List Source) × List AskCall :=
  if env.safetyEnabled then
    match env.inputVerdict with
    | .error e => (.error ("safety check failed: " ++ e),
        [AskCall.checkInput question])
    | .ok verdict =>
      if verdict.isSafe = false then
        (.ok (getRefusalMessage verdict.category, []),
         [AskCall.checkInput question])
      else
        let next := askFromRetrieve cfg env question temperature
        (next.1, AskCall.checkInput question :: next.2)
  else askFromRetrieve cfg env question temperature

/-- The input gate rejected the question in this environment. -/
def inputJudgedUnsafe (env : AskEnv) : Bool :=
  env.safetyEnabled &&
    match env.inputVerdict with
    | .ok verdict => !verdict.isSafe
    | .error _ => false

/-- The output gate rejected the generated answer in this environment. -/
def outputJudgedUnsafe (env : AskEnv) : Bool :=
  env.safetyEnabled &&
    match env.outputVerdict with
    | .ok verdict => !verdict.isSafe
    | .error _ => false


/-! ## Basic lemmas about `fields` -/

theorem fieldsStep_ne_nil (c : Char) (acc : List (List Char)) :
    fieldsStep c acc ≠ [] := by
  unfold fieldsStep
  split
  · simp
  · split <;> simp

theorem fieldsStep_space (c : Char) (acc : List (List Char))
    (hc : goIsSpace c = true) : fieldsStep c acc = [] :: acc := by
  unfold fieldsStep; rw [if_pos hc]

theorem fieldsStep_nonspace_nil (c : Char) (hc : goIsSpace c = false) :
    fieldsStep c [] = [[c]] := by
  unfold fieldsStep; rw [if_neg (by simp [hc])]

theorem fieldsStep_nonspace_cons (c : Char) (w : List Char)
    (rest : List (List Char)) (hc : goIsSpace c = false) :
    fieldsStep c (w :: rest) = (c :: w) :: rest := by
  unfold fieldsStep; rw [if_neg (by simp [hc])]

theorem foldr_fieldsStep_seed_ne_nil (a : List Char) :
    a.foldr fieldsStep [[]] ≠ [] := by
  cases a with
  | nil => simp
  | cons c a' => exact fieldsStep_ne_nil c _

theorem fieldsStep_append (c : Char) (X t : List (List Char)) (h : X ≠ []) :
    fieldsStep c (X ++ t) = fieldsStep c X ++ t := by
  unfold fieldsStep
  split
  · simp
  · cases X with
    | nil => exact absurd rfl h
    | cons w X' => simp

theorem foldr_fieldsStep_nil_cons (a : List Char) (t : List (List Char)) :
    a.foldr fieldsStep ([] :: t) = a.foldr fieldsStep [[]] ++ t := by
  induction a with
  | nil => simp
  | cons c a' ih =>
      simp only [List.foldr_cons, ih]
      exact fieldsStep_append c _ t (foldr_fieldsStep_seed_ne_nil a')

theorem foldr_fieldsStep_seed_split (a : List Char) :
    a.foldr fieldsStep [[]] = a.foldr fieldsStep [] ∨
    a.foldr fieldsStep [[]] = a.foldr fieldsStep [] ++ [[]] := by
  induction a with
  | nil => right; simp
  | cons c a' ih =>
      simp only [List.foldr_cons]
      rcases ih with h | h
      · left; rw [h]
      · rw [h]
        by_cases hc : goIsSpace c = true
        · right
          rw [fieldsStep_space c _ hc, fieldsStep_space c _ hc]
          simp
        · rw [Bool.not_eq_true] at hc
          cases hY : a'.foldr fieldsStep [] with
          | nil =>
              left
              simp only [List.nil_append]
              rw [fieldsStep_nonspace_cons c [] [] hc, fieldsStep_nonspace_nil c hc]
          | cons w Y' =>
              right
              simp only [List.cons_append]
              rw [fieldsStep_nonspace_cons c w (Y' ++ [[]]) hc,
                fieldsStep_nonspace_cons c w Y' hc]
              simp

theorem filter_foldr_fieldsStep_seed (a : List Char) :
    (a.foldr fieldsStep [[]]).filter (fun w => !w.isEmpty) =
    (a.foldr fieldsStep []).filter (fun w => !w.isEmpty) := by
  rcases foldr_fieldsStep_seed_split a with h | h <;> rw [h]
  simp [List.filter_append]

/-- Splitting at an explicit whitespace separator distributes `fields`
over the two halves. -/
theorem fields_append_space (a b : List Char) (c : Char) (hc : goIsSpace c = true) :
    fields (a ++ c :: b) = fields a ++ fields b := by
  unfold fields fieldsCore
  rw [List.foldr_append]
  have hstep : (c :: b).foldr fieldsStep [] = [] :: b.foldr fieldsStep [] := by
    simp only [List.foldr_cons]
    unfold fieldsStep
    rw [if_pos hc]
  rw [hstep, foldr_fieldsStep_nil_cons, List.filter_append,
    filter_foldr_fieldsStep_seed]

/-- Applying `fields` to a single nonempty whitespace-free word is that word. -/
theorem fieldsCore_word (w : List Char) (hne : w ≠ [])
    (hw : ∀ c ∈ w, goIsSpace c = false) : fieldsCore w = [w] := by
  induction w with
  | nil => exact absurd rfl hne
  | cons c w' ih =>
      unfold fieldsCore at ih ⊢
      simp only [List.foldr_cons]
      cases hw' : w' with
      | nil =>
          subst hw'
          simp only [List.foldr_nil]
          unfold fieldsStep
          rw [if_neg]
          simp [hw c (by simp)]
      | cons d w'' =>
          rw [← hw']
          have hrec := ih (by rw [hw']; simp)
            (fun x hx => hw x (List.mem_cons_of_mem c hx))
          rw [hrec]
          unfold fieldsStep
          rw [if_neg]
          simp [hw c (by simp)]

theorem fields_word (w : List Char) (hne : w ≠ [])
    (hw : ∀ c ∈ w, goIsSpace c = false) : fields w = [w] := by
  unfold fields
  rw [fieldsCore_word w hne hw]
  simp [hne]

theorem fields_cons_space (c : Char) (s : List Char) (hc : goIsSpace c = true) :
    fields (c :: s) = fields s := by
  unfold fields fieldsCore
  simp only [List.foldr_cons]
  unfold fieldsStep
  rw [if_pos hc]
  simp

theorem fields_all_space (t : List Char) (h : ∀ c ∈ t, goIsSpace c = true) :
    fields t = [] := by
  induction t with
  | nil => rfl
  | cons c t' ih =>
      rw [fields_cons_space c t' (h c (by simp))]
      exact ih (fun x hx => h x (List.mem_cons_of_mem c hx))

theorem fields_append_all_space (s t : List Char)
    (h : ∀ c ∈ t, goIsSpace c = true) : fields (s ++ t) = fields s := by
  cases t with
  | nil => simp
  | cons c t' =>
      rw [fields_append_space s t' c (h c (by simp)),
        fields_all_space t' (fun x hx => h x (List.mem_cons_of_mem c hx))]
      simp

theorem fields_dropWhile_space (s : List Char) :
    fields (s.dropWhile goIsSpace) = fields s := by
  induction s with
  | nil => rfl
  | cons c s' ih =>
      by_cases hc : goIsSpace c = true
      · rw [List.dropWhile_cons_of_pos hc, ih, fields_cons_space c s' hc]
      · rw [List.dropWhile_cons_of_neg hc]

/-- Trimming via `strings.TrimSpace` does not change the words of a string. -/
theorem fields_trimSpace (s : List Char) : fields (trimSpace s) = fields s := by
  unfold trimSpace
  set u := s.dropWhile goIsSpace with hu
  have hsplit : (u.reverse.dropWhile goIsSpace).reverse ++
      (u.reverse.takeWhile goIsSpace).reverse = u := by
    rw [← List.reverse_append, List.takeWhile_append_dropWhile, List.reverse_reverse]
  have hsp : ∀ c ∈ (u.reverse.takeWhile goIsSpace).reverse, goIsSpace c = true := by
    intro c hc
    rw [List.mem_reverse] at hc
    exact List.mem_takeWhile_imp hc
  calc fields (u.reverse.dropWhile goIsSpace).reverse
      = fields ((u.reverse.dropWhile goIsSpace).reverse ++
          (u.reverse.takeWhile goIsSpace).reverse) :=
        (fields_append_all_space _ _ hsp).symm
    _ = fields u := by rw [hsplit]
    _ = fields s := fields_dropWhile_space s

theorem mem_foldr_fieldsStep_no_space (s : List Char) (acc : List (List Char))
    (hacc : ∀ w ∈ acc, ∀ c ∈ w, goIsSpace c = false) :
    ∀ w ∈ s.foldr fieldsStep acc, ∀ c ∈ w, goIsSpace c = false := by
  induction s with
  | nil => exact hacc
  | cons c s' ih =>
      simp only [List.foldr_cons]
      intro w hw
      by_cases hc : goIsSpace c = true
      · rw [fieldsStep_space c _ hc] at hw
        rcases List.mem_cons.mp hw with h | h
        · subst h; intro x hx; cases hx
        · exact ih w h
      · rw [Bool.not_eq_true] at hc
        cases hF : s'.foldr fieldsStep acc with
        | nil =>
            rw [hF, fieldsStep_nonspace_nil c hc] at hw
            simp only [List.mem_singleton] at hw
            subst hw
            intro x hx
            simp only [List.mem_singleton] at hx
            subst hx
            exact hc
        | cons v F' =>
            rw [hF, fieldsStep_nonspace_cons c v F' hc] at hw
            rcases List.mem_cons.mp hw with h | h
            · subst h
              intro x hx
              rcases List.mem_cons.mp hx with h' | h'
              · subst h'; exact hc
              · exact ih v (by rw [hF]; simp) x h'
            · exact ih w (by rw [hF]; exact List.mem_cons_of_mem v h)

/-- Every word returned by `fields` is nonempty and whitespace-free. -/
theorem fields_clean (s : List Char) :
    ∀ w ∈ fields s, w ≠ [] ∧ ∀ c ∈ w, goIsSpace c = false := by
  intro w hw
  unfold fields at hw
  have hmem := List.mem_of_mem_filter hw
  have hne : w ≠ [] := by
    have := List.of_mem_filter hw
    simpa [List.isEmpty_iff] using this
  exact ⟨hne, mem_foldr_fieldsStep_no_space s [] (by simp) w hmem⟩

theorem mem_foldr_fieldsStep_length (s : List Char) (acc : List (List Char))
    (n : Nat) (hacc : ∀ w ∈ acc, w.length ≤ n) :
    ∀ w ∈ s.foldr fieldsStep acc, w.length ≤ s.length + n := by
  induction s with
  | nil => simpa using hacc
  | cons c s' ih =>
      simp only [List.foldr_cons]
      intro w hw
      by_cases hc : goIsSpace c = true
      · rw [fieldsStep_space c _ hc] at hw
        rcases List.mem_cons.mp hw with h | h
        · subst h; simp
        · have := ih w h
          simp only [List.length_cons]
          omega
      · rw [Bool.not_eq_true] at hc
        cases hF : s'.foldr fieldsStep acc with
        | nil =>
            rw [hF, fieldsStep_nonspace_nil c hc] at hw
            simp only [List.mem_singleton] at hw
            subst hw
            simp only [List.length_cons, List.length_nil]
            omega
        | cons v F' =>
            rw [hF, fieldsStep_nonspace_cons c v F' hc] at hw
            rcases List.mem_cons.mp hw with h | h
            · subst h
              have := ih v (by rw [hF]; simp)
              simp only [List.length_cons]
              omega
            · have := ih w (by rw [hF]; exact List.mem_cons_of_mem v h)
              simp only [List.length_cons]
              omega

/-- A word of `fields s` is no longer than `s` itself. -/
theorem fields_length_le (s : List Char) : ∀ w ∈ fields s, w.length ≤ s.length := by
  intro w hw
  unfold fields at hw
  have hmem := List.mem_of_mem_filter hw
  have := mem_foldr_fieldsStep_length s [] 0 (by simp) w hmem
  omega

/-- Appending a separator space and a clean word to any string appends
exactly that word to its field list. -/
theorem fields_append_word (cur w : List Char) (hne : w ≠ [])
    (hw : ∀ c ∈ w, goIsSpace c = false) :
    fields (cur ++ ' ' :: w) = fields cur ++ [w] := by
  rw [fields_append_space cur w ' ' (by unfold goIsSpace; simp),
    fields_word w hne hw]

/-! ## Chunker lemmas -/

theorem flatten_map_fields_append (A : List (List Char)) (b : List Char) :
    ((A ++ [b]).map fields).flatten = (A.map fields).flatten ++ fields b := by
  simp [List.map_append, List.flatten_append]


/-- Chunks already closed are preserved by the rest of the loop. -/
theorem chunkGo_mono (mc oc : Nat) (ws : List (List Char)) :
    ∀ chunks current c, c ∈ chunks → c ∈ chunkGo mc oc ws chunks current := by
  induction ws with
  | nil =>
      intro chunks current c hc
      simp only [chunkGo]
      split
      · exact List.mem_append_left _ hc
      · exact hc
  | cons x rest ih =>
      intro chunks current c hc
      simp only [chunkGo]
      by_cases hcur : current = []
      · simp only [if_pos hcur]
        split
        · exact ih _ _ c (List.mem_append_left _ hc)
        · exact ih _ _ c hc
      · simp only [if_neg hcur]
        split
        · exact ih _ _ c (List.mem_append_left _ hc)
        · exact ih _ _ c hc

/-- A word already in the running chunk ends up in some produced chunk. -/
theorem chunkGo_persist (mc oc : Nat) (ws : List (List Char)) :
    ∀ chunks current w,
      (∀ x ∈ ws, x ≠ [] ∧ ∀ ch ∈ x, goIsSpace ch = false) →
      w ∈ fields current →
      ∃ c ∈ chunkGo mc oc ws chunks current, w ∈ fields c := by
  induction ws with
  | nil =>
      intro chunks current w _ hw
      simp only [chunkGo]
      have hne : trimSpace current ≠ [] := by
        intro h
        have hf : fields current = [] := by
          rw [← fields_trimSpace, h]; rfl
        rw [hf] at hw; cases hw
      rw [if_pos hne]
      exact ⟨trimSpace current, List.mem_append_right _ (by simp),
        by rw [fields_trimSpace]; exact hw⟩
  | cons x rest ih =>
      intro chunks current w hclean hw
      have hx := hclean x (by simp)
      have hrest : ∀ y ∈ rest, y ≠ [] ∧ ∀ ch ∈ y, goIsSpace ch = false :=
        fun y hy => hclean y (List.mem_cons_of_mem x hy)
      simp only [chunkGo]
      by_cases hcur : current = []
      · rw [hcur] at hw
        simp [fields, fieldsCore] at hw
      · simp only [if_neg hcur]
        split
        · exact ⟨trimSpace current,
            chunkGo_mono mc oc rest _ _ _
              (List.mem_append_right _ (List.mem_singleton.mpr rfl)),
            by rw [fields_trimSpace]; exact hw⟩
        · apply ih _ _ w hrest
          rw [fields_append_word current x hx.1 hx.2]
          exact List.mem_append_left _ hw

/-- Every word of the input lands in some produced chunk. -/
theorem chunkGo_cover (mc oc : Nat) (ws : List (List Char)) :
    ∀ chunks current,
      (∀ x ∈ ws, x ≠ [] ∧ ∀ ch ∈ x, goIsSpace ch = false) →
      ∀ w ∈ ws, ∃ c ∈ chunkGo mc oc ws chunks current, w ∈ fields c := by
  induction ws with
  | nil => intro _ _ _ w hw; cases hw
  | cons x rest ih =>
      intro chunks current hclean w hw
      have hrest : ∀ y ∈ rest, y ≠ [] ∧ ∀ ch ∈ y, goIsSpace ch = false :=
        fun y hy => hclean y (List.mem_cons_of_mem x hy)
      rcases List.mem_cons.mp hw with rfl | hwrest
      · have hx := hclean w (by simp)
        simp only [chunkGo]
        by_cases hcur : current = []
        · simp only [if_pos hcur]
          split
          next h => exact absurd hcur h.2
          next =>
            apply chunkGo_persist mc oc rest _ _ w hrest
            rw [fields_word w hx.1 hx.2]
            exact List.mem_singleton.mpr rfl
        · simp only [if_neg hcur]
          split
          · apply chunkGo_persist mc oc rest _ _ w hrest
            by_cases hov : oc > 0 ∧ (chunks ++ [trimSpace current]) ≠ []
            · rw [if_pos hov, fields_append_word _ w hx.1 hx.2]
              exact List.mem_append_right _ (List.mem_singleton.mpr rfl)
            · rw [if_neg hov, fields_word w hx.1 hx.2]
              exact List.mem_singleton.mpr rfl
          · apply chunkGo_persist mc oc rest _ _ w hrest
            rw [fields_append_word current w hx.1 hx.2]
            exact List.mem_append_right _ (List.mem_singleton.mpr rfl)
      · simp only [chunkGo]
        by_cases hcur : current = []
        · simp only [if_pos hcur]
          split
          · exact ih _ _ hrest w hwrest
          · exact ih _ _ hrest w hwrest
        · simp only [if_neg hcur]
          split
          · exact ih _ _ hrest w hwrest
          · exact ih _ _ hrest w hwrest

/-- Every produced chunk contains at least one word. -/
theorem chunkGo_fields_ne (mc oc : Nat) (ws : List (List Char)) :
    ∀ chunks current,
      (∀ x ∈ ws, x ≠ [] ∧ ∀ ch ∈ x, goIsSpace ch = false) →
      (∀ c ∈ chunks, fields c ≠ []) →
      (current = [] ∨ fields current ≠ []) →
      ∀ c ∈ chunkGo mc oc ws chunks current, fields c ≠ [] := by
  induction ws with
  | nil =>
      intro chunks current _ hchunks hcur c hc
      simp only [chunkGo] at hc
      split at hc
      case isTrue h =>
        rcases List.mem_append.mp hc with h1 | h1
        · exact hchunks c h1
        · simp only [List.mem_singleton] at h1
          subst h1
          rw [fields_trimSpace]
          rcases hcur with rfl | hne
          · exact absurd rfl h
          · exact hne
      case isFalse => exact hchunks c hc
  | cons x rest ih =>
      intro chunks current hclean hchunks hcur c hc
      have hx := hclean x (by simp)
      have hrest : ∀ y ∈ rest, y ≠ [] ∧ ∀ ch ∈ y, goIsSpace ch = false :=
        fun y hy => hclean y (List.mem_cons_of_mem x hy)
      simp only [chunkGo] at hc
      by_cases hcur2 : current = []
      · simp only [if_pos hcur2] at hc
        split at hc
        next h => exact absurd hcur2 h.2
        next =>
          refine ih _ _ hrest hchunks ?_ c hc
          right
          rw [fields_word x hx.1 hx.2]
          simp
      · simp only [if_neg hcur2] at hc
        split at hc
        next hcond =>
          refine ih _ _ hrest ?_ ?_ c hc
          · intro d hd
            rcases List.mem_append.mp hd with h1 | h1
            · exact hchunks d h1
            · simp only [List.mem_singleton] at h1
              subst h1
              rw [fields_trimSpace]
              rcases hcur with rfl | hne
              · exact absurd rfl hcur2
              · exact hne
          · right
            by_cases hov : oc > 0 ∧ (chunks ++ [trimSpace current]) ≠ []
            · rw [if_pos hov, fields_append_word _ x hx.1 hx.2]
              simp
            · rw [if_neg hov, fields_word x hx.1 hx.2]
              simp
        next =>
          refine ih _ _ hrest hchunks ?_ c hc
          right
          rw [fields_append_word current x hx.1 hx.2]
          simp

theorem fields_nil : fields ([] : List Char) = [] := rfl

/-- The word sequence consumed so far is a subsequence of the words of the
produced chunks (overlap seeding only inserts extra material at chunk
starts). -/
theorem chunkGo_sublist (mc oc : Nat) (ws : List (List Char)) :
    ∀ chunks current,
      (∀ x ∈ ws, x ≠ [] ∧ ∀ ch ∈ x, goIsSpace ch = false) →
      List.Sublist ((chunks.map fields).flatten ++ (fields current ++ ws))
        (((chunkGo mc oc ws chunks current).map fields).flatten) := by
  induction ws with
  | nil =>
      intro chunks current _
      simp only [chunkGo]
      split
      next h =>
        rw [flatten_map_fields_append, fields_trimSpace]
        simp
      next h =>
        have hf : fields current = [] := by
          rw [← fields_trimSpace]
          have ht : trimSpace current = [] := by
            by_contra hne; exact h hne
          rw [ht]; rfl
        simp [hf]
  | cons x rest ih =>
      intro chunks current hclean
      have hx := hclean x (by simp)
      have hrest : ∀ y ∈ rest, y ≠ [] ∧ ∀ ch ∈ y, goIsSpace ch = false :=
        fun y hy => hclean y (List.mem_cons_of_mem x hy)
      simp only [chunkGo]
      by_cases hcur : current = []
      · simp only [if_pos hcur]
        split
        next h => exact absurd hcur h.2
        next =>
          have H := ih chunks x hrest
          rw [fields_word x hx.1 hx.2] at H
          subst hcur
          simpa [fields_nil] using H
      · simp only [if_neg hcur]
        split
        next hcond =>
          by_cases hov : oc > 0 ∧ (chunks ++ [trimSpace current]) ≠ []
          · simp only [if_pos hov]
            have H := ih (chunks ++ [trimSpace current])
              (getOverlapText current oc ++ ' ' :: x) hrest
            rw [flatten_map_fields_append, fields_trimSpace,
              fields_append_word _ x hx.1 hx.2] at H
            refine List.Sublist.trans ?_ H
            simp only [List.append_assoc, List.singleton_append]
            exact List.Sublist.append_left
              (List.Sublist.append_left (List.sublist_append_right _ _) _) _
          · simp only [if_neg hov]
            have H := ih (chunks ++ [trimSpace current]) x hrest
            rw [flatten_map_fields_append, fields_trimSpace,
              fields_word x hx.1 hx.2] at H
            simpa [List.append_assoc] using H
        next hcond =>
          have H := ih chunks (current ++ ' ' :: x) hrest
          rw [fields_append_word current x hx.1 hx.2] at H
          simpa [List.append_assoc] using H

/-! ## Orchestrator lemmas -/

/-- Structural case analysis of a non-error `App.Ask` run: it aborted at the
input gate, aborted at the output gate, or completed with one `Source` per
retrieved document. -/
theorem ask_ok_cases (cfg : Config) (env : AskEnv) (q : String) (t : Rat)
    (ans : String) (srcs : List Source)
    (h : (ask cfg env q t).1 = .ok (ans, srcs)) :
    (inputJudgedUnsafe env = true ∧ srcs = []) ∨
    (inputJudgedUnsafe env = false ∧ outputJudgedUnsafe env = true ∧ srcs = []) ∨
    (inputJudgedUnsafe env = false ∧ outputJudgedUnsafe env = false ∧
      ∃ docs, env.searchResult = .ok docs ∧ srcs = docs.map mkSource) := by
  obtain ⟨se, iv, sr, sp, gr, ov⟩ := env
  cases se with
  | false =>
      right; right
      refine ⟨rfl, rfl, ?_⟩
      cases sr with
      | error e => simp [ask, askFromRetrieve] at h
      | ok docs =>
          cases sp with
          | error e => simp [ask, askFromRetrieve] at h
          | ok sysp =>
              cases gr with
              | error e => simp [ask, askFromRetrieve] at h
              | ok resp =>
                  refine ⟨docs, rfl, ?_⟩
                  simp [ask, askFromRetrieve] at h
                  exact h.2.symm
  | true =>
      cases iv with
      | error e => simp [ask] at h
      | ok verdict =>
          cases hsafe : verdict.isSafe with
          | false =>
              left
              simp only [ask, hsafe] at h
              simp [inputJudgedUnsafe, hsafe]
              simp at h
              exact h.2
          | true =>
              cases sr with
              | error e => simp [ask, askFromRetrieve, hsafe] at h
              | ok docs =>
                  cases sp with
                  | error e => simp [ask, askFromRetrieve, hsafe] at h
                  | ok sysp =>
                      cases gr with
                      | error e => simp [ask, askFromRetrieve, hsafe] at h
                      | ok resp =>
                          cases ov with
                          | error e => simp [ask, askFromRetrieve, hsafe] at h
                          | ok verdict2 =>
                              cases hsafe2 : verdict2.isSafe with
                              | false =>
                                  right; left
                                  simp [ask, askFromRetrieve, hsafe, hsafe2] at h
                                  refine ⟨?_, ?_, h.2⟩
                                  · simp [inputJudgedUnsafe, hsafe]
                                  · simp [outputJudgedUnsafe, hsafe2]
                              | true =>
                                  right; right
                                  simp [ask, askFromRetrieve, hsafe, hsafe2] at h
                                  refine ⟨?_, ?_, docs, rfl, h.2.symm⟩
                                  · simp [inputJudgedUnsafe, hsafe]
                                  · simp [outputJudgedUnsafe, hsafe2]

/-- Any generate invocation recorded by the retrieval-onward stages carries
the temperature-override rule: zero means the configured default. -/
theorem askFromRetrieve_generate_temperature (cfg : Config) (env : AskEnv)
    (q : String) (t : Rat) (p : String) (o : GenerateOptions)
    (h : AskCall.generate p o ∈ (askFromRetrieve cfg env q t).2) :
    o.temperature = if t = 0 then cfg.temperature else t := by
  obtain ⟨se, iv, sr, sp, gr, ov⟩ := env
  cases sr with
  | error e => simp [askFromRetrieve] at h
  | ok docs =>
      cases sp with
      | error e => simp [askFromRetrieve] at h
      | ok sysp =>
          cases gr with
          | error e =>
              simp [askFromRetrieve] at h
              rw [h.2]
              by_cases ht : t = 0 <;> simp [ht]
          | ok resp =>
              cases se with
              | false =>
                  simp [askFromRetrieve] at h
                  rw [h.2]
                  by_cases ht : t = 0 <;> simp [ht]
              | true =>
                  cases ov with
                  | error e =>
                      simp [askFromRetrieve] at h
                      rw [h.2]
                      by_cases ht : t = 0 <;> simp [ht]
                  | ok verdict2 =>
                      cases hsafe2 : verdict2.isSafe with
                      | false =>
                          simp [askFromRetrieve, hsafe2] at h
                          rw [h.2]
                          by_cases ht : t = 0 <;> simp [ht]
                      | true =>
                          simp [askFromRetrieve, hsafe2] at h
                          rw [h.2]
                          by_cases ht : t = 0 <;> simp [ht]

/-! ## Parser lemmas -/

theorem lowerStartsWith_length (p s : List Char)
    (h : lowerStartsWith p s = true) : p.length ≤ s.length := by
  induction p generalizing s with
  | nil => simp
  | cons pc ps ih =>
      cases s with
      | nil => simp [lowerStartsWith] at h
      | cons c cs =>
          simp [lowerStartsWith] at h
          have := ih cs h.2
          simp only [List.length_cons]
          omega

theorem containsUnsafe_length (s : List Char) (h : containsUnsafe s = true) :
    6 ≤ s.length := by
  induction s with
  | nil => simp [containsUnsafe] at h
  | cons c rest ih =>
      simp only [containsUnsafe, Bool.or_eq_true] at h
      rcases h with h | h
      · have h1 := lowerStartsWith_length _ _ h
        have h2 : ("unsafe".toList).length = 6 := rfl
        rw [h2] at h1
        exact h1
      · have := ih h
        simp only [List.length_cons]
        omega

theorem containsUnsafe_eq_isSome (s : List Char) :
    containsUnsafe s = (findUnsafeCapture s).isSome := by
  induction s with
  | nil => rfl
  | cons c rest ih =>
      simp only [containsUnsafe, findUnsafeCapture]
      rw [show ("unsafe".toList) = ['u', 'n', 's', 'a', 'f', 'e'] from rfl]
      by_cases h : lowerStartsWith ['u', 'n', 's', 'a', 'f', 'e'] (c :: rest) = true
      · simp [h]
      · rw [Bool.not_eq_true] at h
        simp [h, ih]

theorem containsUnsafe_ne_safe (s : List Char) (h : containsUnsafe s = true) :
    s.map asciiToLower ≠ "safe".toList := by
  intro he
  have h1 := containsUnsafe_length s h
  have h2 : (s.map asciiToLower).length = s.length := List.length_map s asciiToLower
  rw [he] at h2
  have h3 : ("safe".toList).length = 4 := rfl
  omega

/-! ## Claim theorems: chunker (C6, C8, C9) -/

/-- C6 (counterexample): chunking `"abcdefgh xyz"` with `maxTokens = 1`
and `overlap = 1` produces the chunks `"abcdefgh"` and `"efgh xyz"`: the
in-order concatenation of the chunks' words is `[abcdefgh, efgh, xyz]`,
which does not reproduce the original word sequence `[abcdefgh, xyz]`,
and the inserted `efgh` is a mid-word fragment created by
`getOverlapText`, not a duplicated word of the input. -/
theorem chunkText_concat_words_counterexample :
    ((chunkText ("abcdefgh xyz".toList) 1 1).map fields).flatten ≠
      fields ("abcdefgh xyz".toList) ∧
    "efgh".toList ∈ ((chunkText ("abcdefgh xyz".toList) 1 1).map fields).flatten ∧
    "efgh".toList ∉ fields ("abcdefgh xyz".toList) := by
  refine ⟨by decide, by decide, by decide⟩

/-- C6 (amended): for every input text and every `maxTokens`/`overlap`,
every word of the input appears in at least one produced chunk, the
original word sequence is a subsequence of the in-order concatenation of
the chunks' words (overlap seeding can insert duplicated words or trailing
fragments of the preceding chunk at chunk starts), and no produced chunk
is empty. -/
theorem chunkText_coverage (text : List Char) (maxTokens overlap : Nat) :
    (∀ w ∈ fields text, ∃ c ∈ chunkText text maxTokens overlap, w ∈ fields c) ∧
    List.Sublist (fields text)
      (((chunkText text maxTokens overlap).map fields).flatten) ∧
    (∀ c ∈ chunkText text maxTokens overlap, c ≠ []) := by
  by_cases hempty : fields text = []
  · refine ⟨?_, ?_, ?_⟩
    · intro w hwmem; rw [hempty] at hwmem; cases hwmem
    · simp [chunkText, hempty]
    · intro c hc; simp [chunkText, hempty] at hc
  · have hclean := fields_clean text
    refine ⟨?_, ?_, ?_⟩
    · intro w hwmem
      have := chunkGo_cover (maxTokens * 4) (overlap * 4) (fields text) [] []
        hclean w hwmem
      simpa [chunkText, hempty] using this
    · have := chunkGo_sublist (maxTokens * 4) (overlap * 4) (fields text) [] []
        hclean
      simpa [chunkText, hempty, fields_nil] using this
    · intro c hc hceq
      have h2 := chunkGo_fields_ne (maxTokens * 4) (overlap * 4) (fields text)
        [] [] hclean (by simp) (Or.inl rfl) c
        (by simpa [chunkText, hempty] using hc)
      rw [hceq] at h2
      exact h2 fields_nil

/-- Witness for C6 at a concrete input. -/
theorem chunkText_coverage_witness :
    ∃ c ∈ chunkText ("hello world".toList) 1 0, "hello".toList ∈ fields c :=
  (chunkText_coverage ("hello world".toList) 1 0).1 ("hello".toList) (by decide)

/-- C8: a single word longer than `maxChars = maxTokens*4` is never split
mid-word: it appears whole, as a word of its own, in some produced chunk,
and such a chunk exceeds the nominal `maxChars` size bound. -/
theorem chunkText_long_word_whole (text : List Char) (maxTokens overlap : Nat)
    (w : List Char) (hw : w ∈ fields text) (hlong : maxTokens * 4 < w.length) :
    ∃ c ∈ chunkText text maxTokens overlap,
      w ∈ fields c ∧ maxTokens * 4 < c.length := by
  have hempty : ¬ fields text = [] := by
    intro h; rw [h] at hw; cases hw
  obtain ⟨c, hc, hwc⟩ := chunkGo_cover (maxTokens * 4) (overlap * 4)
    (fields text) [] [] (fields_clean text) w hw
  refine ⟨c, by simpa [chunkText, hempty] using hc, hwc, ?_⟩
  have hlen := fields_length_le c w hwc
  omega

/-- Witness for C8 at a concrete input. -/
theorem chunkText_long_word_whole_witness :
    ∃ c ∈ chunkText ("abcdefgh xyz".toList) 1 1,
      "abcdefgh".toList ∈ fields c ∧ 1 * 4 < c.length :=
  chunkText_long_word_whole ("abcdefgh xyz".toList) 1 1 ("abcdefgh".toList)
    (by decide) (by decide)

/-- C9: chunking an empty or all-whitespace text yields the empty chunk
sequence (and no error), for every choice of the parameters. -/
theorem chunkText_whitespace_empty (text : List Char)
    (h : ∀ c ∈ text, goIsSpace c = true) (maxTokens overlap : Nat) :
    chunkText text maxTokens overlap = [] := by
  have hf := fields_all_space text h
  simp [chunkText, hf]

/-- Witness for C9 at `""` and `"   "`. -/
theorem chunkText_whitespace_empty_witness :
    chunkText ("".toList) 5 2 = [] ∧ chunkText ("   ".toList) 7 3 = [] :=
  ⟨chunkText_whitespace_empty ("".toList) (by decide) 5 2,
   chunkText_whitespace_empty ("   ".toList) (by decide) 7 3⟩

/-! ## Claim theorems: classifier parser (C3, C5) -/

/-- C3: the parser returns `isSafe = true` exactly when the trimmed
response is a case-insensitive exact match of `"safe"`; a response that is
neither that nor contains a case-insensitive occurrence of `"unsafe"`
defaults to unsafe with no category and reason
`"Unable to determine safety classification"` — an unparseable response is
never treated as safe. -/
theorem parseResponse_safe_iff_fail_closed (response : String) :
    ((parseResponse response).isSafe = true ↔
      (trimSpace response.toList).map asciiToLower = "safe".toList) ∧
    (containsUnsafe (trimSpace response.toList) = false →
      (trimSpace response.toList).map asciiToLower ≠ "safe".toList →
      parseResponse response =
        { isSafe := false, category := "",
          reason := "Unable to determine safety classification", score := 0 }) := by
  by_cases hsafe : (trimSpace response.toList).map asciiToLower = "safe".toList
  · have hp : parseResponse response = { isSafe := true } := by
      simp only [parseResponse]
      rw [if_pos hsafe]
    constructor
    · rw [hp]
      exact ⟨fun _ => hsafe, fun _ => rfl⟩
    · intro _ hne; exact absurd hsafe hne
  · cases hcap : findUnsafeCapture (trimSpace response.toList) with
    | none =>
        have hp : parseResponse response =
            { isSafe := false, category := "",
              reason := "Unable to determine safety classification", score := 0 } := by
          simp only [parseResponse]
          rw [if_neg hsafe, hcap]
        constructor
        · constructor
          · intro hx; rw [hp] at hx; simp at hx
          · intro hx; exact absurd hx hsafe
        · intro _ _; exact hp
    | some cap =>
        cases cap with
        | some tok =>
            have hp : (parseResponse response).isSafe = false := by
              simp only [parseResponse]
              rw [if_neg hsafe, hcap]
            constructor
            · constructor
              · intro hx; rw [hp] at hx; simp at hx
              · intro hx; exact absurd hx hsafe
            · intro hcu _
              have hiso := containsUnsafe_eq_isSome (trimSpace response.toList)
              rw [hcu, hcap] at hiso
              simp at hiso
        | none =>
            have hp : (parseResponse response).isSafe = false := by
              simp only [parseResponse]
              rw [if_neg hsafe, hcap]
            constructor
            · constructor
              · intro hx; rw [hp] at hx; simp at hx
              · intro hx; exact absurd hx hsafe
            · intro hcu _
              have hiso := containsUnsafe_eq_isSome (trimSpace response.toList)
              rw [hcu, hcap] at hiso
              simp at hiso

/-- Witness for C3 at `"banana"`. -/
theorem parseResponse_safe_iff_fail_closed_witness :
    parseResponse "banana" =
      { isSafe := false, category := "",
        reason := "Unable to determine safety classification", score := 0 } :=
  (parseResponse_safe_iff_fail_closed "banana").2 (by decide) (by decide)

/-- C5: whenever the response contains a case-insensitive occurrence of
`"unsafe"`, the parser returns `isSafe = false`; if the category group of
the regex captured a token (`s`/`S` plus digits), the uppercased token is
the category and the reason is its table description when recognized, else
empty; if no token was captured, category and reason are empty. -/
theorem parseResponse_unsafe_category (response : String)
    (h : containsUnsafe (trimSpace response.toList) = true) :
    (parseResponse response).isSafe = false ∧
    (∀ tok, findUnsafeCapture (trimSpace response.toList) = some (some tok) →
      (parseResponse response).category = String.mk (tok.map asciiToUpper) ∧
      (parseResponse response).reason =
        (lookupCategory (String.mk (tok.map asciiToUpper))).getD "") ∧
    (findUnsafeCapture (trimSpace response.toList) = some none →
      (parseResponse response).category = "" ∧
      (parseResponse response).reason = "") := by
  have hsafe := containsUnsafe_ne_safe _ h
  cases hcap : findUnsafeCapture (trimSpace response.toList) with
  | none =>
      exfalso
      have hiso := containsUnsafe_eq_isSome (trimSpace response.toList)
      rw [h, hcap] at hiso
      simp at hiso
  | some cap =>
      cases cap with
      | some tok =>
          have hp : parseResponse response =
              { isSafe := false, category := String.mk (tok.map asciiToUpper),
                reason :=
                  (lookupCategory (String.mk (tok.map asciiToUpper))).getD "",
                score := 0 } := by
            simp only [parseResponse]
            rw [if_neg hsafe, hcap]
          refine ⟨by rw [hp], ?_, ?_⟩
          · intro tok2 htok2
            have heq : tok = tok2 := by simpa using htok2
            subst heq
            exact ⟨by rw [hp], by rw [hp]⟩
          · intro hnone
            simp at hnone
      | none =>
          have hp : parseResponse response =
              { isSafe := false, category := "", reason := "", score := 0 } := by
            simp only [parseResponse]
            rw [if_neg hsafe, hcap]
          refine ⟨by rw [hp], ?_, fun _ => ⟨by rw [hp], by rw [hp]⟩⟩
          intro tok2 htok2
          simp at htok2

/-- Witness for C5 at `"unsafe S10"`. -/
theorem parseResponse_unsafe_category_witness :
    (parseResponse "unsafe S10").isSafe = false ∧
    (parseResponse "unsafe S10").category = "S10" ∧
    (parseResponse "unsafe S10").reason = "Hate" := by
  have h := parseResponse_unsafe_category "unsafe S10" (by decide)
  have h2 := h.2.1 ("S10".toList) (by decide)
  refine ⟨h.1, ?_, ?_⟩
  · rw [h2.1]; decide
  · rw [h2.2]; decide

/-! ## Claim theorems: formatter (C4) -/

/-- C4 (counterexample): `FormatResponse` with an empty source list returns
the answer text unchanged, with no trimming: on `"  hello  "` it returns
`"  hello  "`, not the trimmed `"hello"`; and re-formatting a formatted
answer with no sources returns it unchanged, which differs from its
trimmed form because a formatted answer ends with a newline. -/
theorem formatResponse_no_trim_counterexample :
    formatResponse "  hello  " [] = "  hello  " ∧
    formatResponse "  hello  " [] ≠ String.mk (trimSpace ("  hello  ".toList)) ∧
    formatResponse (formatResponse "ans"
        [{ id := "d1", content := "c", metadata := [("title", "T")], score := 0 }]) [] ≠
      String.mk (trimSpace ((formatResponse "ans"
        [{ id := "d1", content := "c", metadata := [("title", "T")],
           score := 0 }]).toList)) :=
  ⟨rfl, by decide, by decide⟩

/-- C4 (amended): formatting with an empty source list returns the answer
text unchanged (no trimming), so re-formatting a formatted answer with no
sources is exactly the identity: `formatResponse (formatResponse x sources) []
= formatResponse x sources`. -/
theorem formatResponse_empty_sources_id (x : String) (sources : List Document) :
    formatResponse x [] = x ∧
    formatResponse (formatResponse x sources) [] = formatResponse x sources :=
  ⟨rfl, rfl⟩

/-! ## Claim theorems: orchestrator (C1, C2, C7, C10) -/

/-- C2: with safety gating enabled and the input judged unsafe, `App.Ask`
never invokes the retriever or the generator, and returns the
category-specific refusal message with an empty source list and no
error. -/
theorem ask_input_unsafe_short_circuit (cfg : Config) (env : AskEnv)
    (q : String) (t : Rat) (verdict : SafetyResult)
    (hen : env.safetyEnabled = true)
    (hv : env.inputVerdict = Except.ok verdict)
    (hun : verdict.isSafe = false) :
    ask cfg env q t =
      (Except.ok (getRefusalMessage verdict.category, []),
       [AskCall.checkInput q]) ∧
    (∀ query k, AskCall.search query k ∉ (ask cfg env q t).2) ∧
    (∀ p o, AskCall.generate p o ∉ (ask cfg env q t).2) := by
  have heq : ask cfg env q t =
      (Except.ok (getRefusalMessage verdict.category, []),
       [AskCall.checkInput q]) := by
    simp [ask, hen, hv, hun]
  refine ⟨heq, ?_, ?_⟩
  · intro query k hmem
    rw [heq] at hmem
    simp at hmem
  · intro p o hmem
    rw [heq] at hmem
    simp at hmem

/-- Witness for C2 at a concrete run. -/
theorem ask_input_unsafe_short_circuit_witness :
    ask ⟨5, 1, 256, 1⟩
      ⟨true, Except.ok { isSafe := false, category := "S10" },
       Except.ok [], Except.ok "sp", Except.ok "resp",
       Except.ok { isSafe := true }⟩ "q" 1 =
      (Except.ok (getRefusalMessage "S10", []), [AskCall.checkInput "q"]) :=
  (ask_input_unsafe_short_circuit ⟨5, 1, 256, 1⟩
    ⟨true, Except.ok { isSafe := false, category := "S10" },
     Except.ok [], Except.ok "sp", Except.ok "resp",
     Except.ok { isSafe := true }⟩ "q" 1
    { isSafe := false, category := "S10" } rfl rfl rfl).1

/-- C7: any generate invocation made by `App.Ask` carries the
temperature-override rule: an explicit per-call temperature of exactly
zero is replaced by the configured default, and any non-zero per-call
temperature is passed through unchanged. -/
theorem ask_generate_temperature (cfg : Config) (env : AskEnv) (q : String)
    (t : Rat) (p : String) (o : GenerateOptions)
    (h : AskCall.generate p o ∈ (ask cfg env q t).2) :
    o.temperature = if t = 0 then cfg.temperature else t := by
  by_cases hen : env.safetyEnabled = true
  · rcases hv : env.inputVerdict with e | verdict
    · simp [ask, hen, hv] at h
    · cases hun : verdict.isSafe with
      | false => simp [ask, hen, hv, hun] at h
      | true =>
          simp [ask, hen, hv, hun] at h
          exact askFromRetrieve_generate_temperature cfg env q t p o h
  · rw [Bool.not_eq_true] at hen
    simp only [ask, hen, Bool.false_eq_true, if_false] at h
    exact askFromRetrieve_generate_temperature cfg env q t p o h

/-- Witness for C7 at a concrete run with per-call temperature `5`. -/
theorem ask_generate_temperature_witness :
    ({ temperature := 5, topP := 1, maxTokens := 256, stopSequences := [],
       systemPrompt := "sp" } : GenerateOptions).temperature =
      if (5 : Rat) = 0 then ((7 : Rat)/10) else 5 :=
  ask_generate_temperature ⟨5, (7 : Rat)/10, 256, 1⟩
    ⟨false, Except.ok { isSafe := true }, Except.ok [], Except.ok "sp",
     Except.ok "resp", Except.ok { isSafe := true }⟩ "q" 5
    (buildRAGPrompt "q" []) _ (by decide)

/-- C10: a run of `App.Ask` that completes safely (no error, no unsafe
verdict) returns exactly one `Source` per retrieved document, in the same
order, with `id`, `content`, `metadata` and `score` copied unchanged from
the retrieved documents. -/
theorem ask_sources_copy (cfg : Config) (env : AskEnv) (q : String) (t : Rat)
    (ans : String) (srcs : List Source) (docs : List Document)
    (h : (ask cfg env q t).1 = Except.ok (ans, srcs))
    (hin : inputJudgedUnsafe env = false)
    (hout : outputJudgedUnsafe env = false)
    (hdocs : env.searchResult = Except.ok docs) :
    srcs = docs.map mkSource ∧ srcs.length = docs.length := by
  rcases ask_ok_cases cfg env q t ans srcs h with
    ⟨h1, _⟩ | ⟨_, h2, _⟩ | ⟨_, _, docs2, hd2, hsrcs⟩
  · rw [h1] at hin; simp at hin
  · rw [h2] at hout; simp at hout
  · rw [hdocs] at hd2
    injection hd2 with h3
    subst h3
    exact ⟨hsrcs, by rw [hsrcs, List.length_map]⟩

/-- Witness for C10 at a concrete run retrieving one document. -/
theorem ask_sources_copy_witness :
    ([{ id := "d1", content := "c", metadata := [("title", "T")], score := 1 }] :
        List Source) =
      ([{ id := "d1", content := "c", metadata := [("title", "T")], score := 1 }] :
        List Document).map mkSource ∧
    ([{ id := "d1", content := "c", metadata := [("title", "T")], score := 1 }] :
        List Source).length =
      ([{ id := "d1", content := "c", metadata := [("title", "T")], score := 1 }] :
        List Document).length :=
  ask_sources_copy ⟨5, 1, 256, 1⟩
    ⟨true, Except.ok { isSafe := true },
     Except.ok [{ id := "d1", content := "c", metadata := [("title", "T")],
                  score := 1 }],
     Except.ok "sp", Except.ok "resp", Except.ok { isSafe := true }⟩ "q" 1
    "resp"
    [{ id := "d1", content := "c", metadata := [("title", "T")], score := 1 }]
    [{ id := "d1", content := "c", metadata := [("title", "T")], score := 1 }]
    rfl rfl rfl rfl

/-- C1 (counterexample): a run with safety gating enabled, both gates
passing, and an empty retrieval result completes without error, with no
unsafe judgement, and still returns an empty source list — so "sources
empty exactly when input or output judged unsafe" fails. -/
theorem ask_safe_empty_retrieval_counterexample :
    (ask ⟨5, 1, 256, 1⟩
        ⟨true, Except.ok { isSafe := true }, Except.ok [], Except.ok "sp",
         Except.ok "resp", Except.ok { isSafe := true }⟩ "q" 1).1 =
      Except.ok ("resp", ([] : List Source)) ∧
    inputJudgedUnsafe
      ⟨true, Except.ok { isSafe := true }, Except.ok [], Except.ok "sp",
       Except.ok "resp", Except.ok { isSafe := true }⟩ = false ∧
    outputJudgedUnsafe
      ⟨true, Except.ok { isSafe := true }, Except.ok [], Except.ok "sp",
       Except.ok "resp", Except.ok { isSafe := true }⟩ = false :=
  ⟨rfl, rfl, rfl⟩

/-- C1 (amended): in a run of `App.Ask` that returns without error, an
unsafe verdict at either gate yields an empty source list, and a safe
completion yields one source per retrieved document — hence an empty
source list exactly when retrieval returned no documents. -/
theorem ask_sources_empty_characterization (cfg : Config) (env : AskEnv)
    (q : String) (t : Rat) (ans : String) (srcs : List Source)
    (h : (ask cfg env q t).1 = Except.ok (ans, srcs)) :
    ((inputJudgedUnsafe env = true ∨ outputJudgedUnsafe env = true) →
      srcs = []) ∧
    (inputJudgedUnsafe env = false → outputJudgedUnsafe env = false →
      ∃ docs, env.searchResult = Except.ok docs ∧ srcs = docs.map mkSource ∧
        (srcs = [] ↔ docs = [])) := by
  rcases ask_ok_cases cfg env q t ans srcs h with
    ⟨h1, he⟩ | ⟨h1, h2, he⟩ | ⟨h1, h2, docs, hd, hsrcs⟩
  · refine ⟨fun _ => he, fun hin _ => ?_⟩
    rw [h1] at hin; simp at hin
  · refine ⟨fun _ => he, fun _ hout => ?_⟩
    rw [h2] at hout; simp at hout
  · refine ⟨?_, fun _ _ => ⟨docs, hd, hsrcs, ?_⟩⟩
    · intro hor
      rcases hor with hi | ho
      · rw [h1] at hi; simp at hi
      · rw [h2] at ho; simp at ho
    · rw [hsrcs]
      simp

/-- Witness for C1 (amended) at a concrete safe completion with one
retrieved document. -/
theorem ask_sources_empty_characterization_witness :
    ∃ docs,
      (AskEnv.mk true (Except.ok { isSafe := true })
        (Except.ok [{ id := "d1", content := "c", metadata := [], score := 1 }])
        (Except.ok "sp") (Except.ok "resp")
        (Except.ok { isSafe := true })).searchResult = Except.ok docs ∧
      ([{ id := "d1", content := "c", metadata := [], score := 1 }] :
        List Source) = docs.map mkSource ∧
      (([{ id := "d1", content := "c", metadata := [], score := 1 }] :
        List Source) = [] ↔ docs = []) :=
  (ask_sources_empty_characterization ⟨5, 1, 256, 1⟩
    (AskEnv.mk true (Except.ok { isSafe := true })
      (Except.ok [{ id := "d1", content := "c", metadata := [], score := 1 }])
      (Except.ok "sp") (Except.ok "resp") (Except.ok { isSafe := true }))
    "q" 1 "resp"
    [{ id := "d1", content := "c", metadata := [], score := 1 }] rfl).2 rfl rfl

end Pawdy
